import Mathlib

/-!
Verification development for the readsend repository (personal highlight
vector-store pipeline).  Shallow embedding of the pure logic of:

* `src/parser.py` — `ClippingsParser` and `Highlight` (including the
  content-hash id, an MD5 hex digest of the UTF-8 bytes of the content);
* `src/daily_read.py` — `get_random_highlights` (diversity sampling);
* `src/ingest.py` — `fetch_bible_verses` retry/backoff/checkpoint logic and
  `batch_upsert`;
* `src/migrate_to_namespace.py` — `migrate_to_namespace`.

External services (Pinecone index, ESV API) are modelled by oracles/state:
the vector store is a function from (namespace, id) to stored data, the
remote text service is a function from attempt number to an outcome, and
the nearest-neighbour query service is a function from attempt number to a
query result.  File IO boundaries (reading the clippings file, the
checkpoint JSON) are modelled by passing the file contents as a value.
-/

namespace ReadSend

/-! ## Python string helpers

`pyStrip` models Python's `str.strip()` (remove leading and trailing
whitespace; Lean's `Char.isWhitespace` covers the ASCII whitespace that the
repository's data uses).  `pySplitWs` models `str.split()` with no
arguments: split on runs of whitespace, discarding empty tokens. -/

def pyStripChars (cs : List Char) : List Char :=
  ((cs.dropWhile Char.isWhitespace).reverse.dropWhile Char.isWhitespace).reverse

def pyStrip (s : String) : String :=
  String.mk (pyStripChars s.data)

def pySplitWsGo : List Char → List Char → List (List Char)
  | [], acc => if acc.isEmpty then [] else [acc.reverse]
  | c :: cs, acc =>
      if c.isWhitespace then
        if acc.isEmpty then pySplitWsGo cs [] else acc.reverse :: pySplitWsGo cs []
      else pySplitWsGo cs (c :: acc)

/-- Python `s.split()` (whitespace split, no empty tokens). -/
def pySplitWs (s : String) : List (List Char) :=
  pySplitWsGo s.data []

/-- `len(s.split())` from the source's one-word filter. -/
def tokenCount (s : String) : Nat :=
  (pySplitWs s).length

/-- Does `cs` start with `sep`? -/
def startsWith : List Char → List Char → Bool
  | _, [] => true
  | [], _ :: _ => false
  | c :: cs, s :: ss => c == s && startsWith cs ss

/-- Python `s.split(sep)` for a non-empty separator: scan left to right,
splitting at each non-overlapping occurrence of `sep` (`fuel` bounds the
scan; callers pass the string length, which always suffices since every
step consumes at least one character). -/
def splitSepGo (sep : List Char) : Nat → List Char → List Char → List (List Char)
  | _, [], acc => [acc.reverse]
  | 0, cs, acc => [acc.reverse ++ cs]
  | fuel + 1, c :: cs, acc =>
      if startsWith (c :: cs) sep then
        acc.reverse :: splitSepGo sep fuel ((c :: cs).drop sep.length) []
      else splitSepGo sep fuel cs (c :: acc)

/-- Python `s.split(sep)`. -/
def pySplitSep (s sep : String) : List String :=
  (splitSepGo sep.data s.data.length s.data []).map String.mk

/-- `sep.join(parts)`. -/
def intercalateChars (sep : List Char) : List (List Char) → List Char
  | [] => []
  | [x] => x
  | x :: xs => x ++ sep ++ intercalateChars sep xs

/-- Python `"\n".join(lines)`. -/
def joinNL (lines : List String) : String :=
  String.mk (intercalateChars ['\n'] (lines.map String.data))

/-! ## `src/parser.py` -/

/-- `Highlight` dataclass from `src/parser.py`: title, author, metadata and
content strings. -/
structure Highlight where
  title : String
  author : String
  metadata : String
  content : String
  deriving DecidableEq, Repr

/-- Model of `re.search(r'\((.*?)\)$', title_line)` specialised to
newline-free input (title lines come from splitting on newlines, so they
contain no newline).  `breakAtParen cs` splits `cs` at its first `'('`:
`some (pre, rest)` with `cs = pre ++ '(' :: rest` and no `'('` in `pre`,
or `none` when there is no `'('` — `re.search` scans for the leftmost
position where the pattern can match, and the pattern matches at a `'('`
exactly when the line's last character is `')'`. -/
def breakAtParen : List Char → Option (List Char × List Char)
  | [] => none
  | c :: cs =>
      if c = '(' then some ([], cs)
      else (breakAtParen cs).map (fun p => (c :: p.1, p.2))

/-- The regex search: `some (pre, inner)` means the match succeeded with
group 1 = `inner`, and `pre` is `title_line[:author_match.start()]`. -/
def searchParen (cs : List Char) : Option (List Char × List Char) :=
  (breakAtParen cs).bind (fun pr =>
    if pr.2.getLast? = some ')' then some (pr.1, pr.2.dropLast) else none)

/-- Lines 45–52 of `src/parser.py`: split the title line into
`(title, author)`. -/
def parseTitleLine (line : String) : String × String :=
  match searchParen line.data with
  | some (pre, inner) => (pyStrip (String.mk pre), String.mk inner)
  | none => (line, "Unknown")

/-- The non-blank stripped lines of an entry:
`[l.strip() for l in raw.split('\n') if l.strip()]`. -/
def nonBlankLines (raw : String) : List String :=
  ((pySplitSep raw "\n").map pyStrip).filter (fun s => s ≠ "")

/-- `ClippingsParser._parse_single`: `none` when the entry has fewer than 3
non-blank lines; otherwise title/author from line 1, metadata = line 2,
content = remaining lines rejoined with newlines. -/
def parseSingle (raw : String) : Option Highlight :=
  let lines := nonBlankLines raw
  if lines.length < 3 then none
  else
    let tl := parseTitleLine (lines.headD "")
    some ⟨tl.1, tl.2, (lines.drop 1).headD "", joinNL (lines.drop 2)⟩

/-- The entry blobs of the clippings file:
`[c.strip() for c in content.split("==========") if c.strip()]`. -/
def rawClippings (content : String) : List String :=
  ((pySplitSep content "==========").map pyStrip).filter (fun s => s ≠ "")

/-- `ClippingsParser.parse`, with the file's text passed as a value (the
`open`/`read` is the IO boundary). -/
def parseClippings (content : String) : List Highlight :=
  (rawClippings content).filterMap parseSingle

/-! ## `Highlight.id`: `hashlib.md5(self.content.encode('utf-8')).hexdigest()`

MD5 (RFC 1321) over byte lists, with 32-bit words represented as `Nat`
reduced modulo `2^32`.  UTF-8 encoding of the content string is modelled
explicitly (`utf8Char` is the standard 1–4 byte encoding of a scalar
value). -/

def m32 (x : Nat) : Nat := x % 4294967296

def rotl32 (x n : Nat) : Nat := m32 ((x <<< n) ||| (x >>> (32 - n)))

def not32 (x : Nat) : Nat := x ^^^ 4294967295

/-- The 64 MD5 round constants `K[i] = floor(2^32 * |sin(i+1)|)`. -/
def md5K : List Nat :=
  [3614090360, 3905402710, 606105819, 3250441966, 4118548399, 1200080426, 2821735955, 4249261313,
   1770035416, 2336552879, 4294925233, 2304563134, 1804603682, 4254626195, 2792965006, 1236535329,
   4129170786, 3225465664, 643717713, 3921069994, 3593408605, 38016083, 3634488961, 3889429448,
   568446438, 3275163606, 4107603335, 1163531501, 2850285829, 4243563512, 1735328473, 2368359562,
   4294588738, 2272392833, 1839030562, 4259657740, 2763975236, 1272893353, 4139469664, 3200236656,
   681279174, 3936430074, 3572445317, 76029189, 3654602809, 3873151461, 530742520, 3299628645,
   4096336452, 1126891415, 2878612391, 4237533241, 1700485571, 2399980690, 4293915773, 2240044497,
   1873313359, 4264355552, 2734768916, 1309151649, 4149444226, 3174756917, 718787259, 3951481745]

/-- The 64 MD5 per-round left-rotation amounts. -/
def md5S : List Nat :=
  [7, 12, 17, 22, 7, 12, 17, 22, 7, 12, 17, 22, 7, 12, 17, 22,
   5, 9, 14, 20, 5, 9, 14, 20, 5, 9, 14, 20, 5, 9, 14, 20,
   4, 11, 16, 23, 4, 11, 16, 23, 4, 11, 16, 23, 4, 11, 16, 23,
   6, 10, 15, 21, 6, 10, 15, 21, 6, 10, 15, 21, 6, 10, 15, 21]

/-- Mixing function of round `i` applied to registers `b c d`. -/
def md5F (i b c d : Nat) : Nat :=
  if i < 16 then (b &&& c) ||| (not32 b &&& d)
  else if i < 32 then (d &&& b) ||| (not32 d &&& c)
  else if i < 48 then b ^^^ c ^^^ d
  else c ^^^ (b ||| not32 d)

/-- Message-word index of round `i`. -/
def md5G (i : Nat) : Nat :=
  if i < 16 then i
  else if i < 32 then (5 * i + 1) % 16
  else if i < 48 then (3 * i + 5) % 16
  else (7 * i) % 16

/-- One MD5 round: state `(a, b, c, d)`, message words `w`. -/
def md5Round (w : List Nat) (st : Nat × Nat × Nat × Nat) (i : Nat) :
    Nat × Nat × Nat × Nat :=
  let a := st.1
  let b := st.2.1
  let c := st.2.2.1
  let d := st.2.2.2
  let f := m32 (md5F i b c d + a + (md5K.getD i 0) + (w.getD (md5G i) 0))
  (d, m32 (b + rotl32 f (md5S.getD i 0)), b, c)

/-- Little-endian decoding of a byte list into 32-bit words, 4 bytes per
word. -/
def leWords : List Nat → List Nat
  | b0 :: b1 :: b2 :: b3 :: rest =>
      (b0 + 256 * b1 + 65536 * b2 + 16777216 * b3) :: leWords rest
  | _ => []

/-- Process one 64-byte block. -/
def md5Block (blk : List Nat) (st : Nat × Nat × Nat × Nat) :
    Nat × Nat × Nat × Nat :=
  let w := leWords blk
  let r := (List.range 64).foldl (md5Round w) st
  (m32 (st.1 + r.1), m32 (st.2.1 + r.2.1), m32 (st.2.2.1 + r.2.2.1),
   m32 (st.2.2.2 + r.2.2.2))

/-- Process the padded message 64 bytes at a time (`fuel` bounds the number
of blocks; callers pass the byte count, which always suffices). -/
def md5Blocks : Nat → List Nat → Nat × Nat × Nat × Nat → Nat × Nat × Nat × Nat
  | 0, _, st => st
  | _, [], st => st
  | fuel + 1, bs, st => md5Blocks fuel (bs.drop 64) (md5Block (bs.take 64) st)

/-- MD5 padding: `0x80`, zeros to 56 mod 64, then the 64-bit little-endian
bit length. -/
def md5Pad (msg : List Nat) : List Nat :=
  let len := msg.length
  let zeros := (119 - len % 64) % 64
  let bitLen := (8 * len) % 18446744073709551616
  msg ++ 128 :: List.replicate zeros 0 ++
    (List.range 8).map (fun i => (bitLen >>> (8 * i)) % 256)

/-- Little-endian byte decomposition of one 32-bit word. -/
def wordBytes (x : Nat) : List Nat :=
  [x % 256, x / 256 % 256, x / 65536 % 256, x / 16777216 % 256]

def hexChar (n : Nat) : Char :=
  if n < 10 then Char.ofNat (48 + n) else Char.ofNat (87 + n)

def byteHexChars (b : Nat) : List Char :=
  [hexChar (b / 16 % 16), hexChar (b % 16)]

/-- `hashlib.md5(bytes).hexdigest()`: the 32-character lowercase hex digest
of the MD5 of a byte list. -/
def md5Hex (msg : List Nat) : String :=
  let padded := md5Pad msg
  let st := md5Blocks padded.length padded
    (1732584193, 4023233417, 2562383102, 271733878)
  String.mk
    (((wordBytes st.1 ++ wordBytes st.2.1 ++ wordBytes st.2.2.1 ++
       wordBytes st.2.2.2).map byteHexChars).flatten)

/-- Standard UTF-8 encoding of one character (1–4 bytes). -/
def utf8Char (c : Char) : List Nat :=
  let n := c.toNat
  if n < 128 then [n]
  else if n < 2048 then [192 + n / 64, 128 + n % 64]
  else if n < 65536 then [224 + n / 4096, 128 + n / 64 % 64, 128 + n % 64]
  else [240 + n / 262144, 128 + n / 4096 % 64, 128 + n / 64 % 64, 128 + n % 64]

/-- `s.encode('utf-8')` as a byte list. -/
def utf8Encode (s : String) : List Nat :=
  (s.data.map utf8Char).flatten

/-- `Highlight.id` property from `src/parser.py`:
`hashlib.md5(self.content.encode('utf-8')).hexdigest()`. -/
def Highlight.id (h : Highlight) : String :=
  md5Hex (utf8Encode h.content)

/-! ## `src/daily_read.py`: `get_random_highlights`

The Pinecone index is an external service; each `index.query(...)` call is
modelled by an oracle from the attempt number to a `QueryResult`.  The
model also records every issued query call (its `top_k`,
`include_metadata`, `filter` and — crucially for the namespace claim — its
`namespace` argument, which the source never passes, hence `none`). -/

/-- One match from `results['matches']`: an id and the metadata `content`
field (`match['metadata'].get('content', '')` treats a missing field as
`""`, modelled by `Option String`). -/
structure QMatch where
  qid : String
  content : Option String
  deriving DecidableEq, Repr

/-- Outcome of one `index.query` call: an exception, or a match list. -/
inductive QueryResult where
  | err
  | ok (ms : List QMatch)
  deriving DecidableEq, Repr

/-- The arguments of one issued `index.query` call.  `namespaceArg` is the
`namespace` keyword; the source omits it, so every recorded call carries
`none` (the store's default namespace). -/
structure QueryCall where
  topK : Nat
  includeMetadata : Bool
  filter : Option String
  namespaceArg : Option String
  deriving DecidableEq, Repr

/-- Result of a `get_random_highlights` call: the accepted matches, the
number of query attempts issued, and the issued query calls in order. -/
structure SampleResult where
  highlights : List QMatch
  attempts : Nat
  calls : List QueryCall
  deriving DecidableEq, Repr

/-- The acceptance test of lines 55–58 of `src/daily_read.py`: the id is
new in this call and the (stripped) metadata content has more than one
token. -/
def acceptMatch (seen : List String) (m : QMatch) : Bool :=
  decide (m.qid ∉ seen) && decide (tokenCount (pyStrip (m.content.getD "")) > 1)

/-- The `while len(highlights) < count and attempts < count * 3` loop of
`get_random_highlights`; `fuel` is the remaining attempt budget
(`count * 3 - attempts`), so `fuel = 0` is exactly `attempts = count * 3`.
A query exception (`QueryResult.err`) is caught and the loop continues. -/
def grhGo (oracle : Nat → QueryResult) (count : Nat) (filt : Option String) :
    Nat → Nat → List QMatch → List String → List QueryCall → SampleResult
  | attempts, 0, hs, _, calls => ⟨hs, attempts, calls⟩
  | attempts, fuel + 1, hs, seen, calls =>
      if hs.length < count then
        match oracle attempts with
        | QueryResult.err =>
            grhGo oracle count filt (attempts + 1) fuel hs seen
              (calls ++ [⟨1, true, filt, none⟩])
        | QueryResult.ok [] =>
            grhGo oracle count filt (attempts + 1) fuel hs seen
              (calls ++ [⟨1, true, filt, none⟩])
        | QueryResult.ok (m :: _) =>
            if acceptMatch seen m then
              grhGo oracle count filt (attempts + 1) fuel (hs ++ [m])
                (seen ++ [m.qid]) (calls ++ [⟨1, true, filt, none⟩])
            else
              grhGo oracle count filt (attempts + 1) fuel hs seen
                (calls ++ [⟨1, true, filt, none⟩])
      else ⟨hs, attempts, calls⟩

/-- `get_random_highlights(index, count, source)` with the index modelled
by `oracle`.  `source` is the optional source filter; when present the
call's `filter` is `{"source": {"$eq": source}}`, recorded here as
`some source`. -/
def getRandomHighlights (oracle : Nat → QueryResult) (count : Nat)
    (source : Option String) : SampleResult :=
  grhGo oracle count source 0 (count * 3) [] [] []

/-! ## `src/ingest.py`: retry/backoff in `fetch_bible_verses`

Lines 148–214: for one reference, up to `max_retries = 3` attempts; a
rate-limit error on 0-based attempt `attempt` sleeps `(attempt + 1) * 30`
seconds and retries; any other error or an empty passage abandons the
reference; success checkpoints the fetched verse (the
`fetched_verses[ref_str] = metadata` plus `json.dump`) and applies the
1-second politeness delay, then breaks.  The ESV API is the external
service, modelled by an oracle from the 0-based attempt number to an
outcome. -/

inductive FetchOutcome where
  | success (text : String)
  | emptyPassage
  | rateLimit
  | otherError
  deriving DecidableEq, Repr

/-- Observable events of the retry loop, in order: an attempted API call, a
backoff sleep of `n` seconds, a checkpoint write, the politeness sleep. -/
inductive FetchEvent where
  | attemptEv
  | waitEv (n : Nat)
  | checkpointEv
  | politenessEv
  deriving DecidableEq, Repr

/-- The `for attempt in range(max_retries)` loop for a single reference:
first argument is the 0-based attempt index, second the number of attempts
still allowed.  Returns the event trace and the fetched text, if any. -/
def fetchGo (oracle : Nat → FetchOutcome) :
    Nat → Nat → List FetchEvent × Option String
  | _, 0 => ([], none)
  | attempt, fuel + 1 =>
      match oracle attempt with
      | FetchOutcome.success t =>
          ([FetchEvent.attemptEv, FetchEvent.checkpointEv,
            FetchEvent.politenessEv], some t)
      | FetchOutcome.emptyPassage => ([FetchEvent.attemptEv], none)
      | FetchOutcome.otherError => ([FetchEvent.attemptEv], none)
      | FetchOutcome.rateLimit =>
          let rest := fetchGo oracle (attempt + 1) fuel
          (FetchEvent.attemptEv :: FetchEvent.waitEv ((attempt + 1) * 30) :: rest.1,
           rest.2)

/-- The whole retry loop for one reference (`max_retries = 3`). -/
def fetchOneReference (oracle : Nat → FetchOutcome) :
    List FetchEvent × Option String :=
  fetchGo oracle 0 3

def countAttempts (tr : List FetchEvent) : Nat :=
  (tr.filter (fun e => e = FetchEvent.attemptEv)).length

def countCheckpoints (tr : List FetchEvent) : Nat :=
  (tr.filter (fun e => e = FetchEvent.checkpointEv)).length

/-- The backoff sleeps of a trace, in order. -/
def waitsOf : List FetchEvent → List Nat
  | [] => []
  | FetchEvent.waitEv n :: rest => n :: waitsOf rest
  | _ :: rest => waitsOf rest

/-- Number of leading rate-limited attempts among the first `fuel`
outcomes. -/
def rlPrefix (oracle : Nat → FetchOutcome) : Nat → Nat → Nat
  | _, 0 => 0
  | attempt, fuel + 1 =>
      if oracle attempt = FetchOutcome.rateLimit then
        rlPrefix oracle (attempt + 1) fuel + 1
      else 0

/-! ## `src/ingest.py`: the checkpoint mapping

`fetched_verses` is a Python dict keyed by `reference`; an append is
`fetched_verses[ref_str] = metadata` followed by dumping
`list(fetched_verses.values())`.  Python dict assignment updates the value
in place when the key exists (keeping its position) and appends otherwise;
the dump/reload round trip (`{v['reference']: v for v in json.load(f)}`)
preserves that mapping.  The observable checkpoint state is therefore the
key-value sequence modelled here. -/

/-- Python dict assignment `d[k] = v` on an association list. -/
def dictInsert (d : List (String × String)) (k v : String) :
    List (String × String) :=
  if d.any (fun e => e.1 == k) then
    d.map (fun e => if e.1 == k then (k, v) else e)
  else d ++ [(k, v)]

/-- Number of entries for key `k`. -/
def keyCount (d : List (String × String)) (k : String) : Nat :=
  (d.filter (fun e => e.1 == k)).length

/-- Dict lookup `d[k]`. -/
def dictLookup (d : List (String × String)) (k : String) : Option String :=
  (d.find? (fun e => e.1 == k)).map (fun e => e.2)

/-! ## `src/ingest.py`: `batch_upsert`

`batch_upsert(index, vectors, batch_size=100)` slices `vectors` into
chunks of 100 and calls `index.upsert(vectors=batch,
namespace=PINECONE_NAMESPACE)` for each.  `PINECONE_NAMESPACE` is
environment configuration (default `"aaron"`), passed here as the `ns`
parameter.  Only the issued calls matter for the claims, so the model
returns them. -/

/-- The slices `vectors[i:i+n]` for `i in range(0, len(vectors), n)`
(`fuel` mirrors the finiteness of `range`). -/
def chunksGo (n : Nat) : Nat → List α → List (List α)
  | 0, _ => []
  | _, [] => []
  | fuel + 1, xs => xs.take n :: chunksGo n fuel (xs.drop n)

def chunksOf (n : Nat) (xs : List α) : List (List α) :=
  chunksGo n xs.length xs

/-- One issued `index.upsert` call: the vector batch (ids only matter at
this granularity) and the `namespace` argument. -/
structure UpsertCall where
  vectorIds : List String
  namespaceArg : Option String
  deriving DecidableEq, Repr

/-- `batch_upsert`: the list of issued upsert calls, every one carrying
`namespace=PINECONE_NAMESPACE` (= `ns`). -/
def batchUpsert (vectorIds : List String) (ns : String) : List UpsertCall :=
  (chunksOf 100 vectorIds).map (fun b => ⟨b, some ns⟩)

/-! ## `src/migrate_to_namespace.py`: `migrate_to_namespace`

The vector store is modelled as a function from (namespace, id) to the
stored data, `none` meaning absent.  The embedding values are floats in
the source; no arithmetic is ever performed on them (they are fetched and
re-upserted verbatim), so they are carried opaquely as `List Int`.
The paginated `index.list(namespace="")` loop is the external listing
capability: `none` models an exception during listing (caught at lines
32–34, which prints and returns), `some ids` a successful listing. -/

structure VecData where
  values : List Int
  metadata : List (String × String)
  deriving DecidableEq, Repr

def Store : Type := String → String → Option VecData

/-- `index.upsert` of a single vector into namespace `ns` (same id
overwrites). -/
def storeUpsertOne (s : Store) (ns vid : String) (d : VecData) : Store :=
  fun ns1 vid1 => if ns1 = ns ∧ vid1 = vid then some d else s ns1 vid1

/-- `index.upsert(vectors=batch, namespace=ns)`: each vector of the batch
written in order (same id overwrites, last one wins). -/
def storeUpsert : Store → String → List (String × VecData) → Store
  | s, _, [] => s
  | s, ns, p :: vs => storeUpsert (storeUpsertOne s ns p.1 p.2) ns vs

/-- `index.delete(ids=ids, namespace=ns)`. -/
def storeDelete (s : Store) (ns : String) (ids : List String) : Store :=
  fun ns1 vid1 => if ns1 = ns ∧ vid1 ∈ ids then none else s ns1 vid1

/-- `index.fetch(ids=ids, namespace=ns)`: the found vectors keyed by id
(`fetch_result.vectors` is a dict; listing ids are distinct, so the list
of found pairs is faithful). -/
def storeFetch (s : Store) (ns : String) (ids : List String) :
    List (String × VecData) :=
  ids.filterMap (fun vid => (s ns vid).map (fun d => (vid, d)))

/-- Observable vector-store operations of a migration run, in issue
order. -/
inductive MigOp where
  | fetchOp (ids : List String)
  | upsertOp (ns : String) (vecs : List (String × VecData))
  | deleteOp (ns : String) (ids : List String)
  deriving DecidableEq, Repr

/-- Lines 45–67 of `src/migrate_to_namespace.py`: per 100-id batch, fetch
from the default namespace, and if anything was fetched, upsert it to
`target` and then delete the batch ids from the default namespace. -/
def migrateChunks (target : String) : List (List String) → Store →
    Store × List MigOp
  | [], s => (s, [])
  | c :: cs, s =>
      if (storeFetch s "" c).isEmpty then
        ((migrateChunks target cs s).1,
         MigOp.fetchOp c :: (migrateChunks target cs s).2)
      else
        ((migrateChunks target cs
            (storeDelete (storeUpsert s target (storeFetch s "" c)) "" c)).1,
         MigOp.fetchOp c :: MigOp.upsertOp target (storeFetch s "" c) ::
           MigOp.deleteOp "" c ::
           (migrateChunks target cs
             (storeDelete (storeUpsert s target (storeFetch s "" c)) "" c)).2)

/-- `migrate_to_namespace(target_namespace)`: on a listing error
(`listResult = none`) or an empty listing, return at once; otherwise
process the listed ids in batches of 100. -/
def migrateToNamespace (target : String) (listResult : Option (List String))
    (s : Store) : Store × List MigOp :=
  match listResult with
  | none => (s, [])
  | some [] => (s, [])
  | some ids => migrateChunks target (chunksOf 100 ids) s

/-- Ids carried by the upsert operations of a trace. -/
def upsertedIds : List MigOp → List String
  | [] => []
  | MigOp.upsertOp _ vs :: rest => vs.map Prod.fst ++ upsertedIds rest
  | _ :: rest => upsertedIds rest

/-- `true` when every id named by a delete operation appears in an upsert
operation issued strictly earlier in the trace (the accumulator is the
set of ids upserted so far). -/
def deletesAfterUpserts : List String → List MigOp → Bool
  | _, [] => true
  | acc, MigOp.upsertOp _ vs :: rest =>
      deletesAfterUpserts (acc ++ vs.map Prod.fst) rest
  | acc, MigOp.deleteOp _ ids :: rest =>
      ids.all (fun i => decide (i ∈ acc)) && deletesAfterUpserts acc rest
  | acc, _ :: rest => deletesAfterUpserts acc rest

/-! ## Claim theorems -/

/-- C2: for every content string, the record identifier is the hex digest
of the MD5 hash of the content's UTF-8 bytes, and it is a pure
deterministic function of the content only — two highlights with the same
content have the same id, whatever their title, author or metadata.  (The
function is pure, so repeated calls and process restarts trivially agree.) -/
theorem highlight_id_content_hash (h1 h2 : Highlight)
    (hc : h1.content = h2.content) :
    h1.id = md5Hex (utf8Encode h1.content) ∧ h1.id = h2.id := by
  refine ⟨rfl, ?_⟩
  simp only [Highlight.id, hc]

theorem highlight_id_content_hash_witness :
    (Highlight.mk "Title A" "Author A" "meta A" "shared content").id =
      md5Hex (utf8Encode "shared content") ∧
    (Highlight.mk "Title A" "Author A" "meta A" "shared content").id =
      (Highlight.mk "Title B" "Author B" "meta B" "shared content").id :=
  highlight_id_content_hash
    (Highlight.mk "Title A" "Author A" "meta A" "shared content")
    (Highlight.mk "Title B" "Author B" "meta B" "shared content") rfl

/-- C10: if listing the default namespace fails (`none`) or returns no ids
(`some []`), `migrate_to_namespace` returns at once: no fetch, upsert or
delete operation is issued and the store is unchanged. -/
theorem migrate_noop_on_list_failure (target : String)
    (listResult : Option (List String)) (s : Store)
    (h : listResult = none ∨ listResult = some []) :
    migrateToNamespace target listResult s = (s, []) := by
  rcases h with h | h <;> subst h <;> rfl

theorem migrate_noop_on_list_failure_witness :
    migrateToNamespace "aaron" none (fun _ _ => none) = (fun _ _ => none, []) ∧
    migrateToNamespace "aaron" (some []) (fun _ _ => none) =
      (fun _ _ => none, []) :=
  ⟨migrate_noop_on_list_failure "aaron" none _ (Or.inl rfl),
   migrate_noop_on_list_failure "aaron" (some []) _ (Or.inr rfl)⟩

lemma noKey_of_any_false (d : List (String × String)) (k : String)
    (h : d.any (fun e => e.1 == k) = false) :
    ∀ e ∈ d, (e.1 == k) = false := by
  intro e he
  have := List.any_eq_false.mp h e he
  exact Bool.eq_false_iff.mpr this

lemma map_update_noKey (d : List (String × String)) (k v : String)
    (h : ∀ e ∈ d, (e.1 == k) = false) :
    d.map (fun e => if e.1 == k then (k, v) else e) = d := by
  have h2 : d.map (fun e => if e.1 == k then (k, v) else e) = d.map (fun e => e) :=
    List.map_congr_left (fun e he => by rw [h e he]; simp)
  simpa using h2

lemma find?_map_update_hit (k v : String) :
    ∀ d : List (String × String), d.any (fun e => e.1 == k) = true →
      (d.map (fun e => if e.1 == k then (k, v) else e)).find?
        (fun e => e.1 == k) = some (k, v)
  | [], h => by simp at h
  | a :: d, h => by
      by_cases hk : (a.1 == k) = true
      · simp only [List.map_cons, hk, if_true]
        exact List.find?_cons_of_pos _ (by simp)
      · have hk1 : (a.1 == k) = false := Bool.eq_false_iff.mpr hk
        have hd : d.any (fun e => e.1 == k) = true := by
          simpa [List.any_cons, hk1] using h
        simp only [List.map_cons, hk1, Bool.false_eq_true, if_false]
        rw [List.find?_cons_of_neg _ (by simp [hk1])]
        exact find?_map_update_hit k v d hd

lemma dictInsert_lookup (d : List (String × String)) (k v : String) :
    dictLookup (dictInsert d k v) k = some v := by
  by_cases hd : d.any (fun e => e.1 == k)
  · unfold dictLookup dictInsert
    rw [if_pos hd, find?_map_update_hit k v d hd]
    rfl
  · have hd1 : d.any (fun e => e.1 == k) = false := Bool.eq_false_iff.mpr hd
    have hno := noKey_of_any_false d k hd1
    unfold dictLookup dictInsert
    rw [if_neg (by simp [hd1]), List.find?_append,
      List.find?_eq_none.mpr (fun e he => by simp [hno e he]),
      Option.none_or, List.find?_cons_of_pos _ (by simp)]
    rfl

lemma length_filter_key_nodup (k : String) :
    ∀ d : List (String × String), (d.map Prod.fst).Nodup →
      d.any (fun e => e.1 == k) = true →
      (d.filter (fun e => e.1 == k)).length = 1
  | [], _, h => by simp at h
  | a :: d, hnd, h => by
      simp only [List.map_cons, List.nodup_cons, List.mem_map] at hnd
      obtain ⟨ha, hd'⟩ := hnd
      by_cases hk : (a.1 == k) = true
      · have hka : a.1 = k := by simpa using hk
        have hnil : d.filter (fun e => e.1 == k) = [] := by
          rw [List.filter_eq_nil_iff]
          intro e he
          simp only [beq_iff_eq]
          intro hek
          exact ha ⟨e, he, by rw [hek, hka]⟩
        simp [List.filter_cons, hk, hnil]
      · have hk1 : (a.1 == k) = false := Bool.eq_false_iff.mpr hk
        have hd2 : d.any (fun e => e.1 == k) = true := by
          simpa [List.any_cons, hk1] using h
        simp only [List.filter_cons, hk1, Bool.false_eq_true, if_false]
        exact length_filter_key_nodup k d hd' hd2

lemma dictInsert_keyCount (d : List (String × String)) (k v : String)
    (hd : (d.map Prod.fst).Nodup) :
    keyCount (dictInsert d k v) k = 1 := by
  unfold keyCount dictInsert
  by_cases h : d.any (fun e => e.1 == k)
  · rw [if_pos h, List.filter_map, List.length_map]
    have hcongr : d.filter
        ((fun e => e.1 == k) ∘ fun e => if e.1 == k then (k, v) else e) =
        d.filter (fun e => e.1 == k) := by
      refine List.filter_congr (fun e _ => ?_)
      by_cases hek : (e.1 == k) = true
      · simp [Function.comp, hek]
      · have := Bool.eq_false_iff.mpr hek
        simp [Function.comp, this]
    rw [hcongr]
    exact length_filter_key_nodup k d hd h
  · have h1 : d.any (fun e => e.1 == k) = false := Bool.eq_false_iff.mpr h
    have hno := noKey_of_any_false d k h1
    rw [if_neg (by simp [h1]), List.filter_append]
    have hnil : d.filter (fun e => e.1 == k) = [] := by
      rw [List.filter_eq_nil_iff]
      intro e he
      simp [hno e he]
    simp [hnil]

lemma dictInsert_idem (d : List (String × String)) (k v : String) :
    dictInsert (dictInsert d k v) k v = dictInsert d k v := by
  have hany : (dictInsert d k v).any (fun e => e.1 == k) = true := by
    by_cases hd : d.any (fun e => e.1 == k)
    · obtain ⟨e, he, hek⟩ := List.any_eq_true.mp hd
      simp only [dictInsert, hd, if_true]
      exact List.any_eq_true.mpr
        ⟨(k, v), List.mem_map.mpr ⟨e, he, by simp [hek]⟩, by simp⟩
    · have hd1 : d.any (fun e => e.1 == k) = false := Bool.eq_false_iff.mpr hd
      simp only [dictInsert, hd1, Bool.false_eq_true, if_false]
      exact List.any_eq_true.mpr ⟨(k, v), by simp⟩
  rw [dictInsert, if_pos hany]
  by_cases hd : d.any (fun e => e.1 == k)
  · simp only [dictInsert, hd, if_true, List.map_map]
    refine List.map_congr_left (fun e _ => ?_)
    by_cases hek : (e.1 == k) = true
    · simp [Function.comp, hek]
    · have := Bool.eq_false_iff.mpr hek
      simp [Function.comp, this]
  · have hd1 : d.any (fun e => e.1 == k) = false := Bool.eq_false_iff.mpr hd
    have hno := noKey_of_any_false d k hd1
    simp only [dictInsert, hd1, Bool.false_eq_true, if_false, List.map_append]
    rw [map_update_noKey d k v hno]
    simp

lemma dictInsert_keys_nodup (d : List (String × String)) (k v : String)
    (hd : (d.map Prod.fst).Nodup) :
    ((dictInsert d k v).map Prod.fst).Nodup := by
  by_cases h : d.any (fun e => e.1 == k)
  · have hkeys : (d.map (fun e => if e.1 == k then (k, v) else e)).map Prod.fst =
        d.map Prod.fst := by
      rw [List.map_map]
      refine List.map_congr_left (fun e _ => ?_)
      by_cases hek : (e.1 == k) = true
      · have : e.1 = k := by simpa using hek
        simp [Function.comp, hek, this]
      · have := Bool.eq_false_iff.mpr hek
        simp [Function.comp, this]
    simp only [dictInsert, h, if_true, hkeys]
    exact hd
  · have h1 : d.any (fun e => e.1 == k) = false := Bool.eq_false_iff.mpr h
    have hno := noKey_of_any_false d k h1
    simp only [dictInsert, h1, Bool.false_eq_true, if_false, List.map_append,
      List.map_cons, List.map_nil]
    rw [List.nodup_append]
    refine ⟨hd, List.nodup_singleton _, ?_⟩
    intro x hx
    obtain ⟨e, he, hex⟩ := List.mem_map.mp hx
    simp only [List.mem_singleton]
    intro hxk
    have := hno e he
    rw [hex, hxk] at this
    simp at this

/-- C6: the checkpoint mapping (`fetched_verses`, a dict keyed by
reference) is idempotent on the reference key: inserting a reference that
is already present leaves exactly one entry for it, holding the later
content, and inserting the same reference twice with the same content
leaves the mapping unchanged. -/
theorem checkpoint_append_idempotent (d : List (String × String))
    (k v1 v2 : String) (hd : (d.map Prod.fst).Nodup) :
    keyCount (dictInsert (dictInsert d k v1) k v2) k = 1 ∧
    dictLookup (dictInsert (dictInsert d k v1) k v2) k = some v2 ∧
    dictInsert (dictInsert d k v1) k v1 = dictInsert d k v1 := by
  exact ⟨dictInsert_keyCount _ _ _ (dictInsert_keys_nodup d k v1 hd),
    dictInsert_lookup _ _ _, dictInsert_idem _ _ _⟩

theorem checkpoint_append_idempotent_witness :
    keyCount (dictInsert (dictInsert [("John 3:16", "old")] "John 3:16" "c1")
      "John 3:16" "c2") "John 3:16" = 1 ∧
    dictLookup (dictInsert (dictInsert [("John 3:16", "old")] "John 3:16" "c1")
      "John 3:16" "c2") "John 3:16" = some "c2" ∧
    dictInsert (dictInsert [("John 3:16", "old")] "John 3:16" "c1")
      "John 3:16" "c1" = dictInsert [("John 3:16", "old")] "John 3:16" "c1" :=
  checkpoint_append_idempotent [("John 3:16", "old")] "John 3:16" "c1" "c2"
    (by decide)

lemma breakAtParen_some : ∀ (cs pre rest : List Char),
    breakAtParen cs = some (pre, rest) → cs = pre ++ '(' :: rest ∧ '(' ∉ pre
  | [], pre, rest, h => by simp [breakAtParen] at h
  | c :: cs, pre, rest, h => by
      by_cases hc : c = '('
      · rw [breakAtParen, if_pos hc] at h
        obtain ⟨rfl, rfl⟩ := Prod.mk.injEq .. ▸ Option.some.inj h
        simp [hc]
      · rw [breakAtParen, if_neg hc] at h
        obtain ⟨⟨p, r⟩, hp, heq⟩ := Option.map_eq_some'.mp h
        obtain ⟨rfl, rfl⟩ := Prod.mk.injEq .. ▸ heq
        obtain ⟨hcs, hnp⟩ := breakAtParen_some cs p r hp
        refine ⟨by simp [hcs], ?_⟩
        simp only [List.mem_cons, not_or]
        exact ⟨fun h2 => hc h2.symm, hnp⟩

lemma breakAtParen_none : ∀ cs : List Char,
    breakAtParen cs = none ↔ '(' ∉ cs
  | [] => by simp [breakAtParen]
  | c :: cs => by
      by_cases hc : c = '('
      · simp [breakAtParen, hc]
      · rw [breakAtParen, if_neg hc]
        simp only [Option.map_eq_none', List.mem_cons, not_or]
        rw [breakAtParen_none cs]
        constructor
        · exact fun h => ⟨fun he => hc he.symm, h⟩
        · exact fun h => h.2

lemma searchParen_some (cs pre inner : List Char)
    (h : searchParen cs = some (pre, inner)) :
    cs = pre ++ '(' :: (inner ++ [')']) ∧ '(' ∉ pre := by
  rw [searchParen] at h
  cases hb : breakAtParen cs with
  | none => rw [hb] at h; simp at h
  | some pr =>
      obtain ⟨p, rest⟩ := pr
      rw [hb, Option.some_bind] at h
      by_cases hl : rest.getLast? = some ')'
      · rw [if_pos hl] at h
        obtain ⟨rfl, rfl⟩ := Prod.mk.injEq .. ▸ Option.some.inj h
        obtain ⟨hcs, hnp⟩ := breakAtParen_some cs p rest hb
        have hne : rest ≠ [] := by rintro rfl; simp at hl
        have hlast : rest.getLast hne = ')' := by
          have h2 := List.getLast?_eq_getLast rest hne
          rw [h2] at hl
          exact Option.some.inj hl
        have h3 : rest.dropLast ++ [')'] = rest := by
          rw [← hlast]
          exact List.dropLast_append_getLast hne
        rw [h3]
        exact ⟨hcs, hnp⟩
      · rw [if_neg hl] at h
        simp at h

lemma searchParen_none_of (cs : List Char)
    (h : ¬(('(' ∈ cs) ∧ cs.getLast? = some ')')) : searchParen cs = none := by
  rw [searchParen]
  cases hb : breakAtParen cs with
  | none => rfl
  | some pr =>
      obtain ⟨p, rest⟩ := pr
      obtain ⟨hcs, _⟩ := breakAtParen_some cs p rest hb
      have hmem : '(' ∈ cs := by rw [hcs]; simp
      have hlast : cs.getLast? ≠ some ')' := fun hl => h ⟨hmem, hl⟩
      rw [Option.some_bind, if_neg ?_]
      intro hrl
      apply hlast
      have hne : rest ≠ [] := by rintro rfl; simp at hrl
      rw [hcs, List.getLast?_append_of_ne_nil p (by simp)]
      have hsplit : ('(' :: rest) = ['('] ++ rest := rfl
      rw [hsplit, List.getLast?_append_of_ne_nil _ hne]
      exact hrl

/-- C7: the first non-blank line of an entry parses as: when the regex
`\((.*?)\)$` matches (the line contains a `'('` and ends with `')'`), the
match starts at the leftmost `'('` — the line decomposes as
`pre ++ "(" ++ inner ++ ")"` with no `'('` in `pre` — the author is the
group's interior `inner` and the title is `pre` stripped of surrounding
whitespace; otherwise the author is `"Unknown"` and the title is the whole
line.  In particular `"Meditations (Marcus Aurelius)"` gives title
`"Meditations"` and author `"Marcus Aurelius"`. -/
theorem parse_title_line_rule :
    parseTitleLine "Meditations (Marcus Aurelius)" =
      ("Meditations", "Marcus Aurelius") ∧
    (∀ (line : String) (pre inner : List Char),
      searchParen line.data = some (pre, inner) →
      line.data = pre ++ '(' :: (inner ++ [')']) ∧ '(' ∉ pre ∧
      parseTitleLine line = (pyStrip (String.mk pre), String.mk inner)) ∧
    (∀ line : String, ¬(('(' ∈ line.data) ∧ line.data.getLast? = some ')') →
      parseTitleLine line = (line, "Unknown")) := by
  refine ⟨by decide, ?_, ?_⟩
  · intro line pre inner h
    obtain ⟨hdecomp, hpre⟩ := searchParen_some line.data pre inner h
    exact ⟨hdecomp, hpre, by rw [parseTitleLine, h]⟩
  · intro line h
    rw [parseTitleLine, searchParen_none_of line.data h]

theorem parse_title_line_rule_witness :
    "Meditations (Marcus Aurelius)".data =
      "Meditations ".data ++ '(' :: ("Marcus Aurelius".data ++ [')']) ∧
    '(' ∉ "Meditations ".data ∧
    parseTitleLine "Meditations (Marcus Aurelius)" =
      (pyStrip (String.mk "Meditations ".data),
       String.mk "Marcus Aurelius".data) :=
  parse_title_line_rule.2.1 "Meditations (Marcus Aurelius)"
    "Meditations ".data "Marcus Aurelius".data (by decide)

/-- C8: every `Highlight` in the parser's output comes from an entry with
at least 3 non-blank lines — entries with fewer are discarded — and its
fields are the title-line parse of line 1, line 2 verbatim as metadata,
and the remaining lines rejoined with newlines as content. -/
theorem parse_entry_min_lines (raw : String) (h : Highlight)
    (hmem : h ∈ parseClippings raw) :
    ∃ e ∈ rawClippings raw, parseSingle e = some h ∧
      3 ≤ (nonBlankLines e).length ∧
      h.title = (parseTitleLine ((nonBlankLines e).headD "")).1 ∧
      h.author = (parseTitleLine ((nonBlankLines e).headD "")).2 ∧
      h.metadata = ((nonBlankLines e).drop 1).headD "" ∧
      h.content = joinNL ((nonBlankLines e).drop 2) := by
  obtain ⟨e, he, hpe⟩ := List.mem_filterMap.mp hmem
  refine ⟨e, he, hpe, ?_⟩
  rw [parseSingle] at hpe
  by_cases hlen : (nonBlankLines e).length < 3
  · rw [if_pos hlen] at hpe
    exact absurd hpe (by simp)
  · rw [if_neg hlen] at hpe
    have := Option.some.inj hpe
    subst this
    exact ⟨Nat.le_of_not_lt hlen, rfl, rfl, rfl, rfl⟩

theorem parse_entry_min_lines_witness :
    ∃ e ∈ rawClippings "T (A)\nloc 12\nbody text",
      parseSingle e = some (Highlight.mk "T" "A" "loc 12" "body text") ∧
      3 ≤ (nonBlankLines e).length ∧
      (Highlight.mk "T" "A" "loc 12" "body text").title =
        (parseTitleLine ((nonBlankLines e).headD "")).1 ∧
      (Highlight.mk "T" "A" "loc 12" "body text").author =
        (parseTitleLine ((nonBlankLines e).headD "")).2 ∧
      (Highlight.mk "T" "A" "loc 12" "body text").metadata =
        ((nonBlankLines e).drop 1).headD "" ∧
      (Highlight.mk "T" "A" "loc 12" "body text").content =
        joinNL ((nonBlankLines e).drop 2) :=
  parse_entry_min_lines "T (A)\nloc 12\nbody text"
    (Highlight.mk "T" "A" "loc 12" "body text") (by decide)

lemma fetch_general (o : Nat → FetchOutcome) :
    countAttempts (fetchOneReference o).1 ≤ 3 ∧
    waitsOf (fetchOneReference o).1 =
      (List.range (rlPrefix o 0 3)).map (fun k => 30 * (k + 1)) := by
  cases ho0 : o 0 with
  | success t0 =>
      simp [fetchOneReference, fetchGo, countAttempts, waitsOf, rlPrefix, ho0]
  | emptyPassage =>
      simp [fetchOneReference, fetchGo, countAttempts, waitsOf, rlPrefix, ho0]
  | otherError =>
      simp [fetchOneReference, fetchGo, countAttempts, waitsOf, rlPrefix, ho0]
  | rateLimit =>
      cases ho1 : o 1 with
      | success t1 =>
          simp [fetchOneReference, fetchGo, countAttempts, waitsOf, rlPrefix,
            ho0, ho1, List.range_succ]
      | emptyPassage =>
          simp [fetchOneReference, fetchGo, countAttempts, waitsOf, rlPrefix,
            ho0, ho1, List.range_succ]
      | otherError =>
          simp [fetchOneReference, fetchGo, countAttempts, waitsOf, rlPrefix,
            ho0, ho1, List.range_succ]
      | rateLimit =>
          cases ho2 : o 2 with
          | success t2 =>
              simp [fetchOneReference, fetchGo, countAttempts, waitsOf, rlPrefix,
                ho0, ho1, ho2, List.range_succ]
          | emptyPassage =>
              simp [fetchOneReference, fetchGo, countAttempts, waitsOf, rlPrefix,
                ho0, ho1, ho2, List.range_succ]
          | otherError =>
              simp [fetchOneReference, fetchGo, countAttempts, waitsOf, rlPrefix,
                ho0, ho1, ho2, List.range_succ]
          | rateLimit =>
              simp [fetchOneReference, fetchGo, countAttempts, waitsOf, rlPrefix,
                ho0, ho1, ho2, List.range_succ]

/-- C3: the fetch of one reference is attempted at most 3 times; the
backoff sleeps are exactly `30 * n` seconds after the `n`-th rate-limited
attempt (30s, 60s, 90s); and when attempts 1 and 2 are rate-limited and
attempt 3 succeeds, exactly two backoff waits (30s then 60s) occur and the
reference is checkpointed exactly once. -/
theorem fetch_retry_backoff (oracle : Nat → FetchOutcome) (t : String)
    (h0 : oracle 0 = FetchOutcome.rateLimit)
    (h1 : oracle 1 = FetchOutcome.rateLimit)
    (h2 : oracle 2 = FetchOutcome.success t) :
    (∀ o : Nat → FetchOutcome, countAttempts (fetchOneReference o).1 ≤ 3) ∧
    (∀ o : Nat → FetchOutcome,
      waitsOf (fetchOneReference o).1 =
        (List.range (rlPrefix o 0 3)).map (fun k => 30 * (k + 1))) ∧
    waitsOf (fetchOneReference oracle).1 = [30, 60] ∧
    countCheckpoints (fetchOneReference oracle).1 = 1 ∧
    (fetchOneReference oracle).2 = some t := by
  refine ⟨fun o => (fetch_general o).1, fun o => (fetch_general o).2, ?_, ?_, ?_⟩ <;>
    simp [fetchOneReference, fetchGo, waitsOf, countCheckpoints, h0, h1, h2]

theorem fetch_retry_backoff_witness :
    waitsOf (fetchOneReference (fun n =>
      if n < 2 then FetchOutcome.rateLimit else FetchOutcome.success "text")).1 =
      [30, 60] ∧
    countCheckpoints (fetchOneReference (fun n =>
      if n < 2 then FetchOutcome.rateLimit else FetchOutcome.success "text")).1 = 1 ∧
    (fetchOneReference (fun n =>
      if n < 2 then FetchOutcome.rateLimit else FetchOutcome.success "text")).2 =
      some "text" :=
  (fetch_retry_backoff
    (fun n => if n < 2 then FetchOutcome.rateLimit else FetchOutcome.success "text")
    "text" (by decide) (by decide) (by decide)).2.2

lemma grhGo_length_le (oracle : Nat → QueryResult) (count : Nat)
    (filt : Option String) :
    ∀ (fuel attempts : Nat) (hs : List QMatch) (seen : List String)
      (calls : List QueryCall), hs.length ≤ count →
      (grhGo oracle count filt attempts fuel hs seen calls).highlights.length ≤
        count
  | 0, attempts, hs, seen, calls, h => h
  | fuel + 1, attempts, hs, seen, calls, h => by
      rw [grhGo]
      by_cases hlt : hs.length < count
      · rw [if_pos hlt]
        split
        · exact grhGo_length_le oracle count filt fuel _ _ _ _ h
        · exact grhGo_length_le oracle count filt fuel _ _ _ _ h
        · rename_i m rest hEq
          by_cases hacc : acceptMatch seen m = true
          · rw [if_pos hacc]
            exact grhGo_length_le oracle count filt fuel _ _ _ _
              (by simpa using Nat.succ_le_of_lt hlt)
          · rw [if_neg hacc]
            exact grhGo_length_le oracle count filt fuel _ _ _ _ h
      · rw [if_neg hlt]
        exact h

lemma grhGo_attempts_le (oracle : Nat → QueryResult) (count : Nat)
    (filt : Option String) :
    ∀ (fuel attempts : Nat) (hs : List QMatch) (seen : List String)
      (calls : List QueryCall),
      (grhGo oracle count filt attempts fuel hs seen calls).attempts ≤
        attempts + fuel
  | 0, attempts, hs, seen, calls => Nat.le_refl _
  | fuel + 1, attempts, hs, seen, calls => by
      rw [grhGo]
      have hstep : attempts + 1 + fuel = attempts + (fuel + 1) := by omega
      by_cases hlt : hs.length < count
      · rw [if_pos hlt]
        split
        · exact le_trans (grhGo_attempts_le oracle count filt fuel _ _ _ _)
            (le_of_eq hstep)
        · exact le_trans (grhGo_attempts_le oracle count filt fuel _ _ _ _)
            (le_of_eq hstep)
        · rename_i m rest hEq
          by_cases hacc : acceptMatch seen m = true
          · rw [if_pos hacc]
            exact le_trans (grhGo_attempts_le oracle count filt fuel _ _ _ _)
              (le_of_eq hstep)
          · rw [if_neg hacc]
            exact le_trans (grhGo_attempts_le oracle count filt fuel _ _ _ _)
              (le_of_eq hstep)
      · rw [if_neg hlt]
        exact Nat.le_add_right _ _

lemma grhGo_calls_len (oracle : Nat → QueryResult) (count : Nat)
    (filt : Option String) :
    ∀ (fuel attempts : Nat) (hs : List QMatch) (seen : List String)
      (calls : List QueryCall),
      (grhGo oracle count filt attempts fuel hs seen calls).calls.length +
          attempts =
        (grhGo oracle count filt attempts fuel hs seen calls).attempts +
          calls.length
  | 0, attempts, hs, seen, calls => Nat.add_comm _ _
  | fuel + 1, attempts, hs, seen, calls => by
      rw [grhGo]
      by_cases hlt : hs.length < count
      · rw [if_pos hlt]
        split
        · have := grhGo_calls_len oracle count filt fuel (attempts + 1) hs seen
            (calls ++ [⟨1, true, filt, none⟩])
          simp only [List.length_append, List.length_cons, List.length_nil] at this ⊢
          omega
        · have := grhGo_calls_len oracle count filt fuel (attempts + 1) hs seen
            (calls ++ [⟨1, true, filt, none⟩])
          simp only [List.length_append, List.length_cons, List.length_nil] at this ⊢
          omega
        · rename_i m rest hEq
          by_cases hacc : acceptMatch seen m = true
          · rw [if_pos hacc]
            have := grhGo_calls_len oracle count filt fuel (attempts + 1)
              (hs ++ [m]) (seen ++ [m.qid]) (calls ++ [⟨1, true, filt, none⟩])
            simp only [List.length_append, List.length_cons, List.length_nil]
              at this ⊢
            omega
          · rw [if_neg hacc]
            have := grhGo_calls_len oracle count filt fuel (attempts + 1) hs
              seen (calls ++ [⟨1, true, filt, none⟩])
            simp only [List.length_append, List.length_cons, List.length_nil]
              at this ⊢
            omega
      · rw [if_neg hlt]
        exact Nat.add_comm _ _

/-- C4: `get_random_highlights` returns at most `count` records, issues at
most `count * 3` query attempts (one recorded call per attempt — query
errors consume an attempt instead of aborting), and, being a total
function of its oracle, always terminates — with fewer than `count`
records when the budget runs out. -/
theorem sampler_budget (oracle : Nat → QueryResult) (count : Nat)
    (source : Option String) :
    (getRandomHighlights oracle count source).highlights.length ≤ count ∧
    (getRandomHighlights oracle count source).attempts ≤ count * 3 ∧
    (getRandomHighlights oracle count source).calls.length =
      (getRandomHighlights oracle count source).attempts := by
  refine ⟨grhGo_length_le oracle count source _ _ _ _ _ (by simp), ?_, ?_⟩
  · have := grhGo_attempts_le oracle count source (count * 3) 0 [] [] []
    simpa [getRandomHighlights] using this
  · have := grhGo_calls_len oracle count source (count * 3) 0 [] [] []
    simpa [getRandomHighlights] using this

lemma grhGo_inv (oracle : Nat → QueryResult) (count : Nat)
    (filt : Option String) :
    ∀ (fuel attempts : Nat) (hs : List QMatch) (seen : List String)
      (calls : List QueryCall),
      seen = hs.map QMatch.qid → seen.Nodup →
      (∀ m ∈ hs, 1 < tokenCount (pyStrip (m.content.getD ""))) →
      ((grhGo oracle count filt attempts fuel hs seen
          calls).highlights.map QMatch.qid).Nodup ∧
      (∀ m ∈ (grhGo oracle count filt attempts fuel hs seen calls).highlights,
        1 < tokenCount (pyStrip (m.content.getD "")))
  | 0, attempts, hs, seen, calls, hseen, hnd, hprop => by
      rw [grhGo]
      exact ⟨hseen ▸ hnd, hprop⟩
  | fuel + 1, attempts, hs, seen, calls, hseen, hnd, hprop => by
      rw [grhGo]
      by_cases hlt : hs.length < count
      · rw [if_pos hlt]
        split
        · exact grhGo_inv oracle count filt fuel _ _ _ _ hseen hnd hprop
        · exact grhGo_inv oracle count filt fuel _ _ _ _ hseen hnd hprop
        · rename_i m rest hEq
          by_cases hacc : acceptMatch seen m = true
          · rw [if_pos hacc]
            rw [acceptMatch, Bool.and_eq_true, decide_eq_true_eq,
              decide_eq_true_eq] at hacc
            obtain ⟨hnew, htok⟩ := hacc
            refine grhGo_inv oracle count filt fuel _ _ _ _ ?_ ?_ ?_
            · simp [hseen]
            · rw [List.nodup_append]
              refine ⟨hnd, List.nodup_singleton _, ?_⟩
              intro x hx hx2
              simp only [List.mem_singleton] at hx2
              exact hnew (hx2 ▸ hx)
            · intro m2 hm2
              rcases List.mem_append.mp hm2 with hm2 | hm2
              · exact hprop m2 hm2
              · simp only [List.mem_singleton] at hm2
                exact hm2 ▸ htok
          · rw [if_neg hacc]
            exact grhGo_inv oracle count filt fuel _ _ _ _ hseen hnd hprop
      · rw [if_neg hlt]
        exact ⟨hseen ▸ hnd, hprop⟩

/-- C5: in a single `get_random_highlights` call, the returned records
have pairwise-distinct ids and every returned record's stripped content
has more than one whitespace token (accepted only if its id is new in the
call and its content is not a single word). -/
theorem sampler_distinct_nontrivial (oracle : Nat → QueryResult) (count : Nat)
    (source : Option String) :
    (((getRandomHighlights oracle count source).highlights.map
        QMatch.qid)).Nodup ∧
    ∀ m ∈ (getRandomHighlights oracle count source).highlights,
      1 < tokenCount (pyStrip (m.content.getD "")) :=
  grhGo_inv oracle count source (count * 3) 0 [] [] [] rfl (List.nodup_nil)
    (fun m hm => absurd hm (List.not_mem_nil m))

theorem sampler_distinct_nontrivial_witness :
    1 < tokenCount (pyStrip ((some "two words" : Option String).getD "")) :=
  (sampler_distinct_nontrivial
    (fun _ => QueryResult.ok [⟨"id1", some "two words"⟩]) 1 none).2
    ⟨"id1", some "two words"⟩ (by decide)

lemma grhGo_calls_ns (oracle : Nat → QueryResult) (count : Nat)
    (filt : Option String) :
    ∀ (fuel attempts : Nat) (hs : List QMatch) (seen : List String)
      (calls : List QueryCall),
      (∀ q ∈ calls, q.namespaceArg = none) →
      ∀ q ∈ (grhGo oracle count filt attempts fuel hs seen calls).calls,
        q.namespaceArg = none
  | 0, attempts, hs, seen, calls, hcalls => by
      rw [grhGo]
      exact hcalls
  | fuel + 1, attempts, hs, seen, calls, hcalls => by
      rw [grhGo]
      have hext : ∀ q ∈ calls ++ [(⟨1, true, filt, none⟩ : QueryCall)],
          q.namespaceArg = none := by
        intro q hq
        rcases List.mem_append.mp hq with hq | hq
        · exact hcalls q hq
        · simp only [List.mem_singleton] at hq
          rw [hq]
      by_cases hlt : hs.length < count
      · rw [if_pos hlt]
        split
        · exact grhGo_calls_ns oracle count filt fuel _ _ _ _ hext
        · exact grhGo_calls_ns oracle count filt fuel _ _ _ _ hext
        · rename_i m rest hEq
          by_cases hacc : acceptMatch seen m = true
          · rw [if_pos hacc]
            exact grhGo_calls_ns oracle count filt fuel _ _ _ _ hext
          · rw [if_neg hacc]
            exact grhGo_calls_ns oracle count filt fuel _ _ _ _ hext
      · rw [if_neg hlt]
        exact hcalls

/-- C9: every nearest-neighbour query issued by `get_random_highlights`
carries no `namespace` argument (so it reads the store's default
namespace), for every count and source filter — while `batch_upsert` on
the ingestion path sends every upsert into the configured
`PINECONE_NAMESPACE`. -/
theorem query_default_namespace :
    (∀ (oracle : Nat → QueryResult) (count : Nat) (source : Option String),
      ∀ q ∈ (getRandomHighlights oracle count source).calls,
        q.namespaceArg = none) ∧
    (∀ (vectorIds : List String) (ns : String),
      ∀ u ∈ batchUpsert vectorIds ns, u.namespaceArg = some ns) := by
  constructor
  · intro oracle count source
    exact grhGo_calls_ns oracle count source (count * 3) 0 [] [] []
      (fun q hq => absurd hq (List.not_mem_nil q))
  · intro vectorIds ns u hu
    obtain ⟨b, _, hb⟩ := List.mem_map.mp hu
    rw [← hb]

theorem query_default_namespace_witness :
    (⟨1, true, none, none⟩ : QueryCall).namespaceArg = none ∧
    (⟨["v1"], some "aaron"⟩ : UpsertCall).namespaceArg = some "aaron" :=
  ⟨query_default_namespace.1 (fun _ => QueryResult.err) 1 none
      ⟨1, true, none, none⟩ (by decide),
   query_default_namespace.2 ["v1"] "aaron" ⟨["v1"], some "aaron"⟩ (by decide)⟩

lemma storeUpsertOne_ne (s : Store) (ns vid : String) (d : VecData)
    (ns1 vid1 : String) (h : ¬(ns1 = ns ∧ vid1 = vid)) :
    storeUpsertOne s ns vid d ns1 vid1 = s ns1 vid1 := by
  rw [storeUpsertOne, if_neg h]

lemma storeUpsert_notMem : ∀ (vs : List (String × VecData)) (s : Store)
    (ns ns1 vid1 : String), vid1 ∉ vs.map Prod.fst →
    storeUpsert s ns vs ns1 vid1 = s ns1 vid1
  | [], s, ns, ns1, vid1, _ => rfl
  | p :: vs, s, ns, ns1, vid1, h => by
      have h1 : vid1 ∉ vs.map Prod.fst := by
        intro hm
        exact h (by simp [hm])
      have h2 : vid1 ≠ p.1 := by
        intro he
        exact h (by simp [he])
      rw [storeUpsert, storeUpsert_notMem vs _ ns ns1 vid1 h1,
        storeUpsertOne_ne _ _ _ _ _ _ (fun hc => h2 hc.2)]

lemma storeUpsert_mem : ∀ (vs : List (String × VecData)) (s : Store)
    (ns vid : String) (d : VecData), (vs.map Prod.fst).Nodup →
    (vid, d) ∈ vs → storeUpsert s ns vs ns vid = some d
  | [], s, ns, vid, d, _, hmem => absurd hmem (List.not_mem_nil _)
  | p :: vs, s, ns, vid, d, hnd, hmem => by
      simp only [List.map_cons, List.nodup_cons, List.mem_map] at hnd
      obtain ⟨hp, hnd'⟩ := hnd
      rcases List.mem_cons.mp hmem with hmem | hmem
      · have hvp : vid = p.1 := by rw [← hmem]
        have hnot : vid ∉ vs.map Prod.fst := by
          intro hm
          obtain ⟨q, hq, hq2⟩ := List.mem_map.mp hm
          exact hp ⟨q, hq, by rw [hq2, hvp]⟩
        rw [storeUpsert, storeUpsert_notMem vs _ ns ns vid hnot, storeUpsertOne,
          if_pos ⟨rfl, hvp⟩, ← hmem]
      · exact storeUpsert_mem vs _ ns vid d hnd' hmem

lemma storeDelete_mem (s : Store) (ns : String) (ids : List String)
    (vid : String) (h : vid ∈ ids) : storeDelete s ns ids ns vid = none := by
  rw [storeDelete, if_pos ⟨rfl, h⟩]

lemma storeDelete_ne (s : Store) (ns : String) (ids : List String)
    (ns1 vid1 : String) (h : ¬(ns1 = ns ∧ vid1 ∈ ids)) :
    storeDelete s ns ids ns1 vid1 = s ns1 vid1 := by
  rw [storeDelete, if_neg h]

lemma storeFetch_map_fst : ∀ (ids : List String) (s : Store) (ns : String),
    (∀ vid ∈ ids, s ns vid ≠ none) →
    (storeFetch s ns ids).map Prod.fst = ids
  | [], s, ns, _ => rfl
  | vid :: ids, s, ns, h => by
      have hv := h vid (List.mem_cons_self vid ids)
      obtain ⟨d, hd⟩ := Option.ne_none_iff_exists'.mp hv
      have hrest : ∀ v ∈ ids, s ns v ≠ none :=
        fun v hvm => h v (List.mem_cons_of_mem _ hvm)
      simp only [storeFetch, List.filterMap_cons, hd, Option.map_some']
      simp only [List.map_cons]
      rw [show (ids.filterMap fun v => (s ns v).map fun d0 => (v, d0)) =
        storeFetch s ns ids from rfl, storeFetch_map_fst ids s ns hrest]

lemma storeFetch_mem (s : Store) (ns : String) (ids : List String)
    (vid : String) (d : VecData) (hvid : vid ∈ ids) (hd : s ns vid = some d) :
    (vid, d) ∈ storeFetch s ns ids := by
  rw [storeFetch]
  exact List.mem_filterMap.mpr ⟨vid, hvid, by rw [hd]; rfl⟩

lemma storeFetch_ne_nil (s : Store) (ns : String) (c : List String)
    (hne : c ≠ []) (hA : ∀ vid ∈ c, s ns vid ≠ none) :
    (storeFetch s ns c).isEmpty = false := by
  cases c with
  | nil => exact absurd rfl hne
  | cons vid rest =>
      have hv := hA vid (List.mem_cons_self vid rest)
      obtain ⟨d, hd⟩ := Option.ne_none_iff_exists'.mp hv
      have hmem := storeFetch_mem s ns (vid :: rest) vid d
        (List.mem_cons_self vid rest) hd
      cases hf : storeFetch s ns (vid :: rest) with
      | nil => rw [hf] at hmem; exact absurd hmem (List.not_mem_nil _)
      | cons a l => rfl

lemma deletesAfterUpserts_cons_fetch (acc : List String) (c : List String)
    (rest : List MigOp) :
    deletesAfterUpserts acc (MigOp.fetchOp c :: rest) =
      deletesAfterUpserts acc rest := rfl

lemma migrateChunks_spec (target : String) (hT : target ≠ "") :
    ∀ (cs : List (List String)) (s : Store),
      cs.flatten.Nodup →
      (∀ vid ∈ cs.flatten, s "" vid ≠ none) →
      (∀ vid ∈ cs.flatten, (migrateChunks target cs s).1 "" vid = none) ∧
      (∀ vid ∈ cs.flatten, (migrateChunks target cs s).1 target vid = s "" vid) ∧
      (∀ (ns1 vid : String), vid ∉ cs.flatten →
        (migrateChunks target cs s).1 ns1 vid = s ns1 vid) ∧
      (∀ acc : List String,
        deletesAfterUpserts acc (migrateChunks target cs s).2 = true)
  | [], s, _, _ => by
      refine ⟨by simp, by simp, fun ns1 vid _ => rfl, fun acc => rfl⟩
  | c :: cs, s, hnd, hA => by
      rw [List.flatten_cons] at hnd hA
      rw [List.nodup_append] at hnd
      obtain ⟨hcnd, hcsnd, hdisj⟩ := hnd
      have hAc : ∀ vid ∈ c, s "" vid ≠ none :=
        fun vid hv => hA vid (List.mem_append_left _ hv)
      have hAcs : ∀ vid ∈ cs.flatten, s "" vid ≠ none :=
        fun vid hv => hA vid (List.mem_append_right _ hv)
      have hfst : (storeFetch s "" c).map Prod.fst = c :=
        storeFetch_map_fst c s "" hAc
      by_cases hcnil : c = []
      · subst hcnil
        have hemp : (storeFetch s "" ([] : List String)).isEmpty = true := rfl
        rw [migrateChunks, if_pos hemp]
        obtain ⟨ih1, ih2, ih3, ih4⟩ :=
          migrateChunks_spec target hT cs s hcsnd hAcs
        refine ⟨?_, ?_, ?_, ?_⟩
        · intro vid hv
          rw [List.flatten_cons] at hv
          exact ih1 vid (by simpa using hv)
        · intro vid hv
          rw [List.flatten_cons] at hv
          exact ih2 vid (by simpa using hv)
        · intro ns1 vid hv
          rw [List.flatten_cons] at hv
          exact ih3 ns1 vid (by simpa using hv)
        · intro acc
          rw [deletesAfterUpserts_cons_fetch]
          exact ih4 acc
      · have hemp : (storeFetch s "" c).isEmpty = false :=
          storeFetch_ne_nil s "" c hcnil hAc
        rw [migrateChunks, if_neg (by simp [hemp])]
        have hF1 : ∀ vid ∈ c,
            storeDelete (storeUpsert s target (storeFetch s "" c)) "" c "" vid =
              none :=
          fun vid hv => storeDelete_mem _ _ _ _ hv
        have hF2 : ∀ vid ∈ c,
            storeDelete (storeUpsert s target (storeFetch s "" c)) "" c
              target vid = s "" vid := by
          intro vid hv
          rw [storeDelete_ne _ _ _ _ _ (fun hcon => hT hcon.1)]
          obtain ⟨d, hd⟩ := Option.ne_none_iff_exists'.mp (hAc vid hv)
          rw [storeUpsert_mem (storeFetch s "" c) s target vid d
            (by rw [hfst]; exact hcnd)
            (storeFetch_mem s "" c vid d hv hd), hd]
        have hF3 : ∀ (ns1 vid : String), vid ∉ c →
            storeDelete (storeUpsert s target (storeFetch s "" c)) "" c
              ns1 vid = s ns1 vid := by
          intro ns1 vid hv
          rw [storeDelete_ne _ _ _ _ _ (fun hcon => hv hcon.2),
            storeUpsert_notMem _ _ _ _ _ (by rw [hfst]; exact hv)]
        have hAcs2 : ∀ vid ∈ cs.flatten,
            storeDelete (storeUpsert s target (storeFetch s "" c)) "" c
              "" vid ≠ none := by
          intro vid hv
          rw [hF3 "" vid (fun hvc => hdisj hvc hv)]
          exact hAcs vid hv
        obtain ⟨ih1, ih2, ih3, ih4⟩ := migrateChunks_spec target hT cs
          (storeDelete (storeUpsert s target (storeFetch s "" c)) "" c)
          hcsnd hAcs2
        refine ⟨?_, ?_, ?_, ?_⟩
        · intro vid hv
          rw [List.flatten_cons] at hv
          rcases List.mem_append.mp hv with hv | hv
          · rw [ih3 "" vid (fun hvf => hdisj hv hvf)]
            exact hF1 vid hv
          · exact ih1 vid hv
        · intro vid hv
          rw [List.flatten_cons] at hv
          rcases List.mem_append.mp hv with hv | hv
          · rw [ih3 target vid (fun hvf => hdisj hv hvf)]
            exact hF2 vid hv
          · rw [ih2 vid hv]
            exact hF3 "" vid (fun hvc => hdisj hvc hv)
        · intro ns1 vid hv
          rw [List.flatten_cons] at hv
          have hvc : vid ∉ c := fun hm => hv (List.mem_append_left _ hm)
          have hvf : vid ∉ cs.flatten := fun hm => hv (List.mem_append_right _ hm)
          rw [ih3 ns1 vid hvf]
          exact hF3 ns1 vid hvc
        · intro acc
          rw [deletesAfterUpserts_cons_fetch, deletesAfterUpserts, hfst,
            deletesAfterUpserts]
          have hall : (c.all fun i => decide (i ∈ acc ++ c)) = true := by
            rw [List.all_eq_true]
            intro i hi
            exact decide_eq_true (List.mem_append_right _ hi)
          rw [hall, Bool.true_and]
          exact ih4 (acc ++ c)

lemma chunksGo_flatten (n : Nat) (hn : 0 < n) :
    ∀ (fuel : Nat) (xs : List String), xs.length ≤ fuel →
      (chunksGo n fuel xs).flatten = xs := by
  intro fuel
  induction fuel with
  | zero =>
      intro xs h
      have hx : xs = [] := List.eq_nil_of_length_eq_zero (Nat.le_zero.mp h)
      subst hx
      rfl
  | succ fuel ih =>
      intro xs h
      cases xs with
      | nil => rfl
      | cons x xs =>
          rw [chunksGo, List.flatten_cons, ih _ ?_]
          · exact List.take_append_drop n (x :: xs)
          · simp only [List.length_drop, List.length_cons]
            simp only [List.length_cons] at h
            omega
          · simp

lemma chunksOf_flatten (ids : List String) :
    (chunksOf 100 ids).flatten = ids :=
  chunksGo_flatten 100 (by omega) ids.length ids (Nat.le_refl _)

/-- C1: in a successful migration run (the listing returned the distinct
ids actually present in the default namespace, and the target is a
different namespace), every id named by a delete operation was named by an
upsert operation issued strictly earlier — a record is deleted from the
source only after its upsert to the target — and afterwards the source
namespace contains none of the migrated ids while the target namespace
contains all of them with the identical stored values and metadata. -/
theorem migrate_moves_all (target : String) (ids : List String) (s : Store)
    (hT : target ≠ "") (hN : ids.Nodup)
    (hA : ∀ vid ∈ ids, s "" vid ≠ none) :
    deletesAfterUpserts [] (migrateToNamespace target (some ids) s).2 = true ∧
    (∀ vid ∈ ids, (migrateToNamespace target (some ids) s).1 "" vid = none) ∧
    (∀ vid ∈ ids,
      (migrateToNamespace target (some ids) s).1 target vid = s "" vid) := by
  cases ids with
  | nil =>
      exact ⟨rfl, fun vid hv => absurd hv (List.not_mem_nil _),
        fun vid hv => absurd hv (List.not_mem_nil _)⟩
  | cons i rest =>
      have hdef : migrateToNamespace target (some (i :: rest)) s =
          migrateChunks target (chunksOf 100 (i :: rest)) s := rfl
      have hflat := chunksOf_flatten (i :: rest)
      obtain ⟨ih1, ih2, ih3, ih4⟩ := migrateChunks_spec target hT
        (chunksOf 100 (i :: rest)) s (by rw [hflat]; exact hN)
        (by rw [hflat]; exact hA)
      rw [hdef]
      exact ⟨ih4 [], fun vid hv => ih1 vid (by rw [hflat]; exact hv),
        fun vid hv => ih2 vid (by rw [hflat]; exact hv)⟩

theorem migrate_moves_all_witness :
    deletesAfterUpserts [] (migrateToNamespace "aaron" (some ["a"])
      (fun ns vid =>
        if ns = "" ∧ vid = "a" then some ⟨[1], [("k", "v")]⟩
        else none)).2 = true ∧
    (∀ vid ∈ ["a"], (migrateToNamespace "aaron" (some ["a"])
      (fun ns vid =>
        if ns = "" ∧ vid = "a" then some ⟨[1], [("k", "v")]⟩
        else none)).1 "" vid = none) ∧
    (∀ vid ∈ ["a"], (migrateToNamespace "aaron" (some ["a"])
      (fun ns vid =>
        if ns = "" ∧ vid = "a" then some ⟨[1], [("k", "v")]⟩
        else none)).1 "aaron" vid =
      (fun ns vid =>
        if ns = "" ∧ vid = "a" then some ⟨[1], [("k", "v")]⟩
        else none) "" vid) :=
  migrate_moves_all "aaron" ["a"]
    (fun ns vid =>
      if ns = "" ∧ vid = "a" then some ⟨[1], [("k", "v")]⟩
      else none)
    (by decide) (by decide) (by decide)

end ReadSend
